import Mathlib

/-!
# Verification of the `cosmic` cosmology calculator core

A shallow embedding of the numerical core of the `cosmic` program: the
`Cosmo` class (cosmology model) from `cosmo.cc` / `cosmo.h` together with its
Romberg integrator, plus the non-member validator `isNumeric`.

C++ `double` values are modelled as real numbers with exact arithmetic; the
Romberg integrator is additionally kept generic over a linear ordered field so
that concrete runs can be evaluated exactly over `ℚ` by the kernel.
-/

namespace Cosmic

open scoped Classical

/-! ## Physical constants (globals in `cosmo.cc`) -/

/-- Source: `const double c = 2.99792458e5;` — speed of light, km/s. -/
noncomputable def c : ℝ := 2.99792458e5

/-- Source: `const double G = 6.67259e-8;` — gravitational constant, cgs. -/
noncomputable def G : ℝ := 6.67259e-8

/-- Source: `const double PI = atan(double(1)) * 4;` -/
noncomputable def PI : ℝ := Real.arctan 1 * 4

/-- Source: `const double kmPerMpc = 3.08567758e19;` -/
noncomputable def kmPerMpc : ℝ := 3.08567758e19

/-- Source: `const double tropicalYear = 3.1556926e7;` — in seconds. -/
noncomputable def tropicalYear : ℝ := 3.1556926e7

/-- Source: `numeric_limits<double>::epsilon() = 2^-52` (machine epsilon of IEEE-754
binary64). -/
noncomputable def epsF64 : ℝ := 1 / 2 ^ 52

/-- Source: `inline double SQR(const double a) { return a*a; }` -/
def SQR {α : Type} [Mul α] (a : α) : α := a * a

/-- Source: `inline double CUBE(const double a) { return a*a*a; }` -/
def CUBE {α : Type} [Mul α] (a : α) : α := a * a * a

/-! ## The Romberg integrator (`Cosmo::romberg`)

```cpp
double Cosmo::romberg(PFD func, double a, double b)
{
    double h = b - a;     // coarsest panel size
    double dR;            // convergence
    int np = 1;           // Current number of panels
    const int N = 25;     // maximum iterations
    double prec = 1e-8;   // desired precision
    vector<double> R(N*N);
    // Compute the first term R(1,1)
    R[0] = h/2 * ((this->*func)(a) + (this->*func)(b));

    // Loop over the desired number of rows, i = 2,...,N
    int i,j,k;
    for(i = 1; i < N; ++i)
    {
        // Compute the summation in the recursive trapezoidal rule
        h /= 2.0;          // Use panels half the previous size
        np *= 2;           // Use twice as many panels
        double sumT = 0.0;
        for( k=1; k<=(np-1); k+=2 )
            sumT += (this->*func)( a + k*h);

        // Compute Romberg table entries R(i,1), R(i,2), ..., R(i,i)
        R[N*i] = 0.5 * R[N*(i-1)] + h * sumT;
        int m = 1;
        for( j=1; j<i; ++j )
        {
            m *= 4;
            R[N*i+j] = R[N*i+j-1] + (R[N*i+j-1] - R[N*(i-1)+j-1]) / (m-1);
        }
        dR = (j > 1) ? R[N*i+j-1] - R[N*(i-1)+(j-2)] : R[0];
        if (fabs(dR) < prec)
            return R[N*i+j-1];
    }
    return R.back();
}
```

The table `vector<double> R(N*N)` is value-initialized (all cells `0.0`), and
is modelled as a total function `ℕ → α` that starts as the constant `0`.
-/

/-- Table write `R[k] = v`. -/
def upd {α : Type} (R : ℕ → α) (k : ℕ) (v : α) : ℕ → α :=
  fun n => if n = k then v else R n

section RombergDef

variable {α : Type} [LinearOrderedField α]

/-- Source: `for( k=1; k<=(np-1); k+=2 ) sumT += f( a + k*h);` — the sum of `f` at the
`count = np/2` odd multiples of `h`:  `Σ_{j<count} f (a + (2j+1)·h)`. -/
def trapSum (f : α → α) (a h : α) : ℕ → α
  | 0 => 0
  | j + 1 => trapSum f a h j + f (a + (2 * (j : α) + 1) * h)

/-- The inner extrapolation loop
`for( j=1; j<i; ++j ) { m *= 4; R[N*i+j] = R[N*i+j-1] + (R[N*i+j-1] - R[N*(i-1)+j-1]) / (m-1); }`
with `steps` iterations remaining (`N = 25`). -/
def extrapSteps (i : ℕ) (R : ℕ → α) (m j : ℕ) : ℕ → (ℕ → α)
  | 0 => R
  | steps + 1 =>
    let m := m * 4
    let R := upd R (25 * i + j)
      (R (25 * i + j - 1) + (R (25 * i + j - 1) - R (25 * (i - 1) + j - 1)) / ((m : α) - 1))
    extrapSteps i R m (j + 1) steps

/-- The outer loop `for(i = 1; i < N; ++i)` with `fuel = 25 - i` rows
remaining; on exhaustion the function returns `R.back() = R[25*25-1]`. -/
def rombergLoop (f : α → α) (a : α) : (fuel : ℕ) → (R : ℕ → α) → (h : α) → (np : ℕ) → (i : ℕ) → α
  | 0, R, _, _, _ => R (25 * 25 - 1)
  | fuel + 1, R, h, np, i =>
    let h := h / 2
    let np := np * 2
    let sumT := trapSum f a h (np / 2)
    let R := upd R (25 * i) (0.5 * R (25 * (i - 1)) + h * sumT)
    let R := extrapSteps i R 1 1 (i - 1)
    let dR := if 1 < i then R (25 * i + i - 1) - R (25 * (i - 1) + (i - 2)) else R 0
    if |dR| < 1e-8 then R (25 * i + i - 1)
    else rombergLoop f a fuel R h np (i + 1)

/-- Romberg integration, translated from `Cosmo::romberg`. -/
def romberg (f : α → α) (a b : α) : α :=
  let h := b - a
  let R : ℕ → α := fun _ => 0
  let R := upd R 0 (h / 2 * (f a + f b))
  rombergLoop f a 24 R h 1 1

/-- Same loop as `rombergLoop` but reporting how the loop ends: `some v` when
the tolerance test `|dR| < 1e-8` triggers the early `return` with value `v`,
and `none` when the row cap is exhausted. -/
def rombergLoopConv (f : α → α) (a : α) :
    (fuel : ℕ) → (R : ℕ → α) → (h : α) → (np : ℕ) → (i : ℕ) → Option α
  | 0, _, _, _, _ => none
  | fuel + 1, R, h, np, i =>
    let h := h / 2
    let np := np * 2
    let sumT := trapSum f a h (np / 2)
    let R := upd R (25 * i) (0.5 * R (25 * (i - 1)) + h * sumT)
    let R := extrapSteps i R 1 1 (i - 1)
    let dR := if 1 < i then R (25 * i + i - 1) - R (25 * (i - 1) + (i - 2)) else R 0
    if |dR| < 1e-8 then some (R (25 * i + i - 1))
    else rombergLoopConv f a fuel R h np (i + 1)

/-- Convergence status of a `romberg` run. -/
def rombergConv (f : α → α) (a b : α) : Option α :=
  let h := b - a
  let R : ℕ → α := fun _ => 0
  let R := upd R 0 (h / 2 * (f a + f b))
  rombergLoopConv f a 24 R h 1 1

end RombergDef

/-! ## The cosmology model (`class Cosmo`)

Member data of `class Cosmo` (all `double`), modelled as a record of reals. -/

structure Cosmo where
  H0_ : ℝ
  q0_ : ℝ
  OmegaM_ : ℝ
  OmegaL_ : ℝ
  Omegak_ : ℝ
  dH_ : ℝ
  z_ : ℝ
  dA_ : ℝ
  dL_ : ℝ
  dC_ : ℝ
  dM_ : ℝ
  VC_ : ℝ
  tL_ : ℝ
  age_ : ℝ
  scale_ : ℝ
  rhoCrit_ : ℝ

/-- Source: `inline double E(const double z) { return sqrt(OmegaM_ * CUBE(1 + z) + Omegak_ * SQR(1 + z) + OmegaL_); }`
as a function of the three density parameters it reads. -/
noncomputable def E (omegaM omegak omegaL z : ℝ) : ℝ :=
  Real.sqrt (omegaM * CUBE (1 + z) + omegak * SQR (1 + z) + omegaL)

/-- Source: `inline double inverseOfE(const double z) { return 1.0 / E(z); }` -/
noncomputable def inverseOfE (omegaM omegak omegaL z : ℝ) : ℝ :=
  1.0 / E omegaM omegak omegaL z

/-- Source: `inline double lookbackIntegrand(const double z) { return 1.0 / (1 + z) / E(z); }` -/
noncomputable def lookbackIntegrand (omegaM omegak omegaL z : ℝ) : ℝ :=
  1.0 / (1 + z) / E omegaM omegak omegaL z

/-- Source: `Cosmo::ageIntegrand`:
```cpp
double z = x / (1 - x);
return 1.0 / (1 + z) / E(z) / SQR(1 - x);
``` -/
noncomputable def ageIntegrand (omegaM omegak omegaL x : ℝ) : ℝ :=
  let z := x / (1 - x)
  1.0 / (1 + z) / E omegaM omegak omegaL z / SQR (1 - x)

/-- The curvature density as computed by `Cosmo::init`:
```cpp
Omegak_ = 1.0 - omegaMatter - omegaLambda;
if (fabs(Omegak_) <= numeric_limits<double>::epsilon())
    Omegak_ = 0;
``` -/
noncomputable def snapOmegak (omegaMatter omegaLambda : ℝ) : ℝ :=
  let Omegak := 1.0 - omegaMatter - omegaLambda
  if |Omegak| ≤ epsF64 then 0 else Omegak

/-- Source: `Cosmo::init` — sets every member field, including `z_ = 0` and zeroed
distances; `age_` is computed by Romberg integration of `ageIntegrand` from
`0` to `1 - machine epsilon`. -/
noncomputable def init (hNought omegaMatter omegaLambda : ℝ) : Cosmo :=
  let Omegak := snapOmegak omegaMatter omegaLambda
  { H0_ := hNought
    OmegaM_ := omegaMatter
    OmegaL_ := omegaLambda
    Omegak_ := Omegak
    q0_ := 0.5 * omegaMatter - omegaLambda
    dH_ := c / hNought
    age_ := romberg (ageIntegrand omegaMatter Omegak omegaLambda) 0.0 (1.0 - epsF64) / hNought * kmPerMpc
    dC_ := 0
    dM_ := 0
    dA_ := 0
    dL_ := 0
    VC_ := 0
    tL_ := 0
    z_ := 0
    scale_ := 0
    rhoCrit_ := 0 }

/-- The default constructor `Cosmo::Cosmo()` (Planck 2013 parameters). -/
noncomputable def mkDefault : Cosmo := init 67.04 0.3183 0.6817

/-- Source: `Cosmo::setDistances` — critical density first, then an early return with
all distances zeroed when `!z_`, otherwise the full set of distance measures. -/
noncomputable def setDistances (s : Cosmo) : Cosmo :=
  let rhoCrit := 3.0 / 8.0 / PI * SQR (s.H0_ / kmPerMpc) / G *
    (s.OmegaL_ + CUBE (1 + s.z_) * s.OmegaM_)
  if s.z_ = 0 then
    { s with
      rhoCrit_ := rhoCrit
      dC_ := 0
      dM_ := 0
      VC_ := 0
      dA_ := 0
      dL_ := 0
      tL_ := 0
      scale_ := 0 }
  else
    let dC := s.dH_ * romberg (inverseOfE s.OmegaM_ s.Omegak_ s.OmegaL_) 0 s.z_
    let dM :=
      if s.Omegak_ > 0 then
        s.dH_ / Real.sqrt s.Omegak_ * Real.sinh (Real.sqrt s.Omegak_ * dC / s.dH_)
      else if s.Omegak_ < 0 then
        s.dH_ / Real.sqrt |s.Omegak_| * Real.sin (Real.sqrt |s.Omegak_| * dC / s.dH_)
      else dC
    let VC :=
      if s.Omegak_ > 0 then
        2 * PI * CUBE s.dH_ / s.Omegak_ *
          (dM / s.dH_ * Real.sqrt (1 + s.Omegak_ * SQR (dM / s.dH_)) -
            Real.arsinh (Real.sqrt |s.Omegak_| * dM / s.dH_) / Real.sqrt |s.Omegak_|) / 1e9
      else if s.Omegak_ < 0 then
        2 * PI * CUBE s.dH_ / s.Omegak_ *
          (dM / s.dH_ * Real.sqrt (1 + s.Omegak_ * SQR (dM / s.dH_)) -
            Real.arcsin (Real.sqrt |s.Omegak_| * dM / s.dH_) / Real.sqrt |s.Omegak_|) / 1e9
      else 4 * PI * CUBE dM / 3 / 1e9
    let dA := dM / (1 + s.z_)
    { s with
      rhoCrit_ := rhoCrit
      dC_ := dC
      dM_ := dM
      VC_ := VC
      dA_ := dA
      dL_ := dM * (1 + s.z_)
      tL_ := romberg (lookbackIntegrand s.OmegaM_ s.Omegak_ s.OmegaL_) 0 s.z_ / s.H0_ * kmPerMpc
      scale_ := dA / 648 * PI }

/-- Source: `Cosmo::setRedshift`: `z_ = redshift; setDistances();` -/
noncomputable def setRedshift (s : Cosmo) (redshift : ℝ) : Cosmo :=
  setDistances { s with z_ := redshift }

/-- Source: `Cosmo::setCosmology`: `init(hNought, omegaMatter, omegaLambda); if (z_) setDistances();`
(the guard reads the member `z_` as left by `init`). -/
noncomputable def setCosmology (_s : Cosmo) (hNought omegaMatter omegaLambda : ℝ) : Cosmo :=
  let t := init hNought omegaMatter omegaLambda
  if t.z_ ≠ 0 then setDistances t else t

/-- Source: `Cosmo::clone`: `init(a.H0_, a.OmegaM_, a.OmegaL_); setRedshift(a.z_);` —
used by both the copy constructor and `operator=`. -/
noncomputable def clone (a : Cosmo) : Cosmo :=
  setRedshift (init a.H0_ a.OmegaM_ a.OmegaL_) a.z_

/-- The copy constructor `Cosmo::Cosmo(const Cosmo&)`. -/
noncomputable def copyCons (a : Cosmo) : Cosmo := clone a

/-- Source: `Cosmo::operator=` for distinct objects (the `this == &a` self-assignment
guard is a physical-identity check with no value-level effect to model). -/
noncomputable def assign (_target : Cosmo) (a : Cosmo) : Cosmo := clone a

/-- States reachable through the public interface: construction with
arbitrary parameters, `setCosmology`, `setRedshift` with a (caller-validated)
nonnegative redshift, and copying. -/
inductive Reachable : Cosmo → Prop
  | construct (hNought omegaMatter omegaLambda : ℝ) :
      Reachable (init hNought omegaMatter omegaLambda)
  | cosmology {s : Cosmo} (hs : Reachable s) (hNought omegaMatter omegaLambda : ℝ) :
      Reachable (setCosmology s hNought omegaMatter omegaLambda)
  | redshift {s : Cosmo} (hs : Reachable s) (z : ℝ) (hz : 0 ≤ z) :
      Reachable (setRedshift s z)
  | copy {s : Cosmo} (hs : Reachable s) : Reachable (clone s)

/-! ## The numeric-token validator (`isNumeric`) -/

/-- Leftmost index of a character satisfying `p` — the common core of the
`std::string::find` / `find_first_not_of` calls in `isNumeric`. -/
def findCharIdx (p : Char → Bool) : List Char → Option ℕ
  | [] => none
  | ch :: t => if p ch then some 0 else (findCharIdx p t).map (· + 1)

/-- The character set `"-0123456789."` of `isNumeric`. -/
def numericChars : List Char :=
  ['-', '0', '1', '2', '3', '4', '5', '6', '7', '8', '9', '.']

/-- Source: `int isNumeric(const string& text)` (`true` = 1, `false` = 0):
```cpp
i = text.find_first_not_of("-0123456789.");
if (i >= 0 && i < n) return 0;
i = text.find("-", 1);
if (i > 0 && i < n) return 0;
i = text.find(".");
if (i >= 0 && i < n) {
    i = text.find(".", i+1);
    if (i >= 0 && i < n) return 0;
}
return 1;
``` -/
def isNumeric (text : List Char) : Bool :=
  if (findCharIdx (fun ch => !(numericChars.contains ch)) text).isSome then false
  else if (findCharIdx (fun ch => ch == '-') (text.drop 1)).isSome then false
  else
    match findCharIdx (fun ch => ch == '.') text with
    | none => true
    | some i => !(findCharIdx (fun ch => ch == '.') (text.drop (i + 1))).isSome

/-- The specification predicate: the token consists only of digits, at most
one decimal point and at most one minus sign, the latter only in the leading
position. -/
def SignedDecimal (text : List Char) : Prop :=
  (∀ ch ∈ text, ch.isDigit = true ∨ ch = '.' ∨ ch = '-') ∧
  text.count '.' ≤ 1 ∧
  (∀ i : ℕ, (hi : i < text.length) → text.get ⟨i, hi⟩ = '-' → i = 0)

/-! ## A non-convergent integrand for the Romberg cap (C1)

`badf` is supported on `1` and the points `2^{-i}`; each refinement row `i`
of a run on `[0, 1]` meets exactly one support point (odd multiples
`(2j+1)·2^{-i}` with `j ≥ 1` are never powers of `1/2`), which forces the
trapezoid estimates to `T_i = 4^i`: the diagonal differences grow instead of
converging and the run exhausts all 25 rows. -/

noncomputable def badf (x : ℝ) : ℝ :=
  if x = 1 then 2
  else if ∃ i : ℕ, x = (1 / 2) ^ i then (7 / 8) / x ^ 3
  else 0

/-- The diagonal-profile sequence of the forced Romberg table: row `i` holds
`R[i][j] = mu j · 4^i`. -/
noncomputable def mu : ℕ → ℝ
  | 0 => 1
  | j + 1 => mu j * ((4:ℝ) ^ (j+1) - 1/4) / ((4:ℝ) ^ (j+1) - 1)

/-! ## Basic field lemmas -/

theorem PI_eq_pi : PI = Real.pi := by
  rw [PI, Real.arctan_one]; ring

theorem PI_pos : 0 < PI := by rw [PI_eq_pi]; exact Real.pi_pos

@[simp] lemma init_H0 (h m l : ℝ) : (init h m l).H0_ = h := rfl

@[simp] lemma init_OmegaM (h m l : ℝ) : (init h m l).OmegaM_ = m := rfl

@[simp] lemma init_OmegaL (h m l : ℝ) : (init h m l).OmegaL_ = l := rfl

@[simp] lemma init_Omegak (h m l : ℝ) : (init h m l).Omegak_ = snapOmegak m l := rfl

@[simp] lemma init_q0 (h m l : ℝ) : (init h m l).q0_ = 0.5 * m - l := rfl

@[simp] lemma init_dH (h m l : ℝ) : (init h m l).dH_ = c / h := rfl

@[simp] lemma init_age (h m l : ℝ) :
    (init h m l).age_ =
      romberg (ageIntegrand m (snapOmegak m l) l) 0.0 (1.0 - epsF64) / h * kmPerMpc := rfl

@[simp] lemma init_z (h m l : ℝ) : (init h m l).z_ = 0 := rfl

@[simp] lemma init_dC (h m l : ℝ) : (init h m l).dC_ = 0 := rfl

@[simp] lemma init_dM (h m l : ℝ) : (init h m l).dM_ = 0 := rfl

@[simp] lemma init_dA (h m l : ℝ) : (init h m l).dA_ = 0 := rfl

@[simp] lemma init_dL (h m l : ℝ) : (init h m l).dL_ = 0 := rfl

@[simp] lemma init_VC (h m l : ℝ) : (init h m l).VC_ = 0 := rfl

@[simp] lemma init_tL (h m l : ℝ) : (init h m l).tL_ = 0 := rfl

@[simp] lemma init_scale (h m l : ℝ) : (init h m l).scale_ = 0 := rfl

@[simp] lemma init_rhoCrit (h m l : ℝ) : (init h m l).rhoCrit_ = 0 := rfl

@[simp] lemma setDistances_H0 (s : Cosmo) : (setDistances s).H0_ = s.H0_ := by
  simp only [setDistances]; split <;> rfl

@[simp] lemma setDistances_q0 (s : Cosmo) : (setDistances s).q0_ = s.q0_ := by
  simp only [setDistances]; split <;> rfl

@[simp] lemma setDistances_OmegaM (s : Cosmo) : (setDistances s).OmegaM_ = s.OmegaM_ := by
  simp only [setDistances]; split <;> rfl

@[simp] lemma setDistances_OmegaL (s : Cosmo) : (setDistances s).OmegaL_ = s.OmegaL_ := by
  simp only [setDistances]; split <;> rfl

@[simp] lemma setDistances_Omegak (s : Cosmo) : (setDistances s).Omegak_ = s.Omegak_ := by
  simp only [setDistances]; split <;> rfl

@[simp] lemma setDistances_dH (s : Cosmo) : (setDistances s).dH_ = s.dH_ := by
  simp only [setDistances]; split <;> rfl

@[simp] lemma setDistances_z (s : Cosmo) : (setDistances s).z_ = s.z_ := by
  simp only [setDistances]; split <;> rfl

@[simp] lemma setDistances_age (s : Cosmo) : (setDistances s).age_ = s.age_ := by
  simp only [setDistances]; split <;> rfl

/-- The critical density is set (from the current parameters and redshift)
in both branches of `setDistances`. -/
lemma setDistances_rhoCrit (s : Cosmo) :
    (setDistances s).rhoCrit_ =
      3.0 / 8.0 / PI * SQR (s.H0_ / kmPerMpc) / G *
        (s.OmegaL_ + CUBE (1 + s.z_) * s.OmegaM_) := by
  simp only [setDistances]; split <;> rfl

/-- The `if (!z_)` early-return branch of `setDistances`. -/
lemma setDistances_of_z_zero (s : Cosmo) (hz : s.z_ = 0) :
    (setDistances s).dC_ = 0 ∧ (setDistances s).dM_ = 0 ∧ (setDistances s).VC_ = 0 ∧
    (setDistances s).dA_ = 0 ∧ (setDistances s).dL_ = 0 ∧ (setDistances s).tL_ = 0 ∧
    (setDistances s).scale_ = 0 := by
  simp [setDistances, if_pos hz]

/-- In the non-trivial branch, `dC` is the Romberg integral of `1/E`. -/
lemma setDistances_dC (s : Cosmo) (hz : s.z_ ≠ 0) :
    (setDistances s).dC_ =
      s.dH_ * romberg (inverseOfE s.OmegaM_ s.Omegak_ s.OmegaL_) 0 s.z_ := by
  simp only [setDistances, if_neg hz]

/-- Source: `dA = dM/(1+z)` holds in both branches of `setDistances` (in the early
branch both sides are `0`). -/
lemma setDistances_dA (s : Cosmo) :
    (setDistances s).dA_ = (setDistances s).dM_ / (1 + (setDistances s).z_) := by
  rw [setDistances_z]
  simp only [setDistances]
  split
  · simp
  · rfl

/-- Source: `dL = dM·(1+z)` holds in both branches of `setDistances`. -/
lemma setDistances_dL (s : Cosmo) :
    (setDistances s).dL_ = (setDistances s).dM_ * (1 + (setDistances s).z_) := by
  rw [setDistances_z]
  simp only [setDistances]
  split
  · simp
  · rfl

/-- The flat branch: when `Omegak_ = 0`, `dM = dC` and
`VC = 4·π·dM³/3/1e9`. -/
lemma setDistances_flat (s : Cosmo) (hk : s.Omegak_ = 0) :
    (setDistances s).dM_ = (setDistances s).dC_ ∧
    (setDistances s).VC_ = 4 * PI * CUBE ((setDistances s).dM_) / 3 / 1e9 := by
  simp only [setDistances]
  split
  · constructor
    · rfl
    · show (0:ℝ) = 4 * PI * CUBE (0:ℝ) / 3 / 1e9
      simp [CUBE]
  · rw [hk]
    norm_num

@[simp] lemma setRedshift_z (s : Cosmo) (z : ℝ) : (setRedshift s z).z_ = z := by
  rw [setRedshift, setDistances_z]

@[simp] lemma setRedshift_H0 (s : Cosmo) (z : ℝ) : (setRedshift s z).H0_ = s.H0_ := by
  rw [setRedshift, setDistances_H0]

@[simp] lemma setRedshift_OmegaM (s : Cosmo) (z : ℝ) : (setRedshift s z).OmegaM_ = s.OmegaM_ := by
  rw [setRedshift, setDistances_OmegaM]

@[simp] lemma setRedshift_OmegaL (s : Cosmo) (z : ℝ) : (setRedshift s z).OmegaL_ = s.OmegaL_ := by
  rw [setRedshift, setDistances_OmegaL]

@[simp] lemma setRedshift_Omegak (s : Cosmo) (z : ℝ) : (setRedshift s z).Omegak_ = s.Omegak_ := by
  rw [setRedshift, setDistances_Omegak]

@[simp] lemma setRedshift_dH (s : Cosmo) (z : ℝ) : (setRedshift s z).dH_ = s.dH_ := by
  rw [setRedshift, setDistances_dH]

@[simp] lemma setRedshift_age (s : Cosmo) (z : ℝ) : (setRedshift s z).age_ = s.age_ := by
  rw [setRedshift, setDistances_age]

/-- Source: `init` leaves `z_ = 0`, so the recompute guard `if (z_) setDistances();`
inside `setCosmology` never fires: `setCosmology` is exactly `init`. -/
lemma setCosmology_eq_init (s : Cosmo) (h m l : ℝ) :
    setCosmology s h m l = init h m l := by
  simp [setCosmology]

/-! ## Reachability invariants -/

lemma reachable_z_nonneg {s : Cosmo} (hs : Reachable s) : 0 ≤ s.z_ := by
  induction hs with
  | construct h m l => simp
  | cosmology hs h m l ih => rw [setCosmology_eq_init]; simp
  | redshift hs z hz ih => simpa using hz
  | copy hs ih => rw [clone]; simpa using ih

/-- Every reachable state is an `init` state or `setRedshift` (with a
nonnegative redshift) of a reachable state. -/
lemma reachable_rep {s : Cosmo} (hs : Reachable s) :
    (∃ h m l, s = init h m l) ∨
    (∃ t z, Reachable t ∧ 0 ≤ z ∧ s = setRedshift t z) := by
  induction hs with
  | construct h m l => exact Or.inl ⟨h, m, l, rfl⟩
  | cosmology hs h m l ih => exact Or.inl ⟨h, m, l, setCosmology_eq_init _ h m l⟩
  | redshift hs z hz ih => exact Or.inr ⟨_, z, hs, hz, rfl⟩
  | copy hs ih =>
    exact Or.inr ⟨_, _, Reachable.construct _ _ _, reachable_z_nonneg hs, rfl⟩

/-- In every reachable state the stored curvature is the snapped
`1 - OmegaM - OmegaL` of the stored parameters. -/
lemma reachable_omegak {s : Cosmo} (hs : Reachable s) :
    s.Omegak_ = snapOmegak s.OmegaM_ s.OmegaL_ := by
  induction hs with
  | construct h m l => simp
  | cosmology hs h m l ih => rw [setCosmology_eq_init]; simp
  | redshift hs z hz ih => simpa using ih
  | copy hs ih => rw [clone]; simp

/-! ## The Romberg cap-exhaustion path

The loop writes table cells `R[25*i + j]` with `1 ≤ i ≤ 24`, `0 ≤ j ≤ i - 1`
(largest index `25·24 + 23 = 623`), plus `R[0]`; the cell `R[25·25 − 1] = R[624]`
returned by `return R.back();` on cap exhaustion is never assigned. -/

section RombergCap

variable {α : Type} [LinearOrderedField α]

lemma extrapSteps_apply_high (i : ℕ) (steps : ℕ) :
    ∀ (R : ℕ → α) (m j n : ℕ), 25 * i + j + steps ≤ n →
      extrapSteps i R m j steps n = R n := by
  induction steps with
  | zero => intro R m j n _; rfl
  | succ steps ih =>
    intro R m j n hn
    rw [extrapSteps]
    rw [ih _ _ _ _ (by omega)]
    rw [upd]
    rw [if_neg (by omega)]

lemma rombergLoop_eq_conv (f : α → α) (a : α) (fuel : ℕ) :
    ∀ (R : ℕ → α) (h : α) (np i : ℕ), 1 ≤ i → i + fuel ≤ 25 → R (25 * 25 - 1) = 0 →
      rombergLoop f a fuel R h np i = (rombergLoopConv f a fuel R h np i).getD 0 := by
  induction fuel with
  | zero =>
    intro R h np i _ _ hR
    exact hR
  | succ fuel ih =>
    intro R h np i hi hfuel hR
    simp only [rombergLoop, rombergLoopConv]
    split <;>
    · split
      · rfl
      · apply ih _ _ _ _ (by omega) (by omega)
        rw [extrapSteps_apply_high _ _ _ _ _ _ (by omega)]
        rw [upd, if_neg (by omega)]
        exact hR

end RombergCap

/-! ## Exact evaluation of Romberg runs over `ℚ`

The integrator performs field arithmetic and comparisons only, so a run whose
integrand restricts to a rational-valued function on rational inputs can be
computed exactly over `ℚ` and transported to `ℝ` along the cast. -/

section RombergRatCast

lemma upd_ratCast (R : ℕ → ℚ) (k : ℕ) (v : ℚ) :
    (fun n => ((upd R k v n : ℚ) : ℝ)) = upd (fun n => ((R n : ℚ) : ℝ)) k (v : ℝ) := by
  funext n
  rw [upd, upd]
  split <;> rfl

lemma trapSum_ratCast (fQ : ℚ → ℚ) (fR : ℝ → ℝ) (hf : ∀ q : ℚ, fR q = fQ q)
    (a h : ℚ) (count : ℕ) :
    ((trapSum fQ a h count : ℚ) : ℝ) = trapSum fR (a : ℝ) (h : ℝ) count := by
  induction count with
  | zero => simp [trapSum]
  | succ n ih =>
    rw [trapSum, trapSum, Rat.cast_add, ih]
    congr 1
    rw [show ((a : ℝ) + (2 * (n : ℝ) + 1) * (h : ℝ)) = ((a + (2 * (n : ℚ) + 1) * h : ℚ) : ℝ)
      by push_cast; ring]
    exact (hf _).symm

lemma extrapSteps_ratCast (i : ℕ) (steps : ℕ) :
    ∀ (R : ℕ → ℚ) (m j : ℕ),
      (fun n => ((extrapSteps i R m j steps n : ℚ) : ℝ)) =
        extrapSteps i (fun n => ((R n : ℚ) : ℝ)) m j steps := by
  induction steps with
  | zero => intro R m j; rfl
  | succ steps ih =>
    intro R m j
    rw [extrapSteps, extrapSteps]
    rw [ih]
    rw [upd_ratCast]
    push_cast
    ring

lemma rombergLoop_ratCast (fQ : ℚ → ℚ) (fR : ℝ → ℝ) (hf : ∀ q : ℚ, fR q = fQ q)
    (a : ℚ) (fuel : ℕ) :
    ∀ (R : ℕ → ℚ) (h : ℚ) (np i : ℕ),
      ((rombergLoop fQ a fuel R h np i : ℚ) : ℝ) =
        rombergLoop fR (a : ℝ) fuel (fun n => ((R n : ℚ) : ℝ)) (h : ℝ) np i := by
  induction fuel with
  | zero => intro R h np i; rfl
  | succ fuel ih =>
    intro R h np i
    simp only [rombergLoop]
    rw [show ((h : ℝ) / 2) = ((h / 2 : ℚ) : ℝ) by push_cast; ring]
    rw [← trapSum_ratCast fQ fR hf]
    rw [show (0.5 * ((fun n => ((R n : ℚ) : ℝ)) (25 * (i - 1))) +
          ((h / 2 : ℚ) : ℝ) * ((trapSum fQ a (h / 2) (np * 2 / 2) : ℚ) : ℝ)) =
        ((0.5 * R (25 * (i - 1)) + h / 2 * trapSum fQ a (h / 2) (np * 2 / 2) : ℚ) : ℝ)
      by push_cast; ring]
    rw [← upd_ratCast]
    rw [← extrapSteps_ratCast]
    set R2 := extrapSteps i
      (upd R (25 * i) (0.5 * R (25 * (i - 1)) + h / 2 * trapSum fQ a (h / 2) (np * 2 / 2)))
      1 1 (i - 1) with hR2
    have hdR : (if 1 < i then ((R2 (25 * i + i - 1) : ℚ) : ℝ) - ((R2 (25 * (i - 1) + (i - 2)) : ℚ) : ℝ)
          else ((R2 0 : ℚ) : ℝ)) =
        (((if 1 < i then R2 (25 * i + i - 1) - R2 (25 * (i - 1) + (i - 2)) else R2 0 : ℚ)) : ℝ) := by
      split <;> push_cast <;> ring
    rw [hdR]
    have hcond : (|(((if 1 < i then R2 (25 * i + i - 1) - R2 (25 * (i - 1) + (i - 2)) else R2 0 : ℚ)) : ℝ)| <
        (1e-8 : ℝ)) ↔
        (|if 1 < i then R2 (25 * i + i - 1) - R2 (25 * (i - 1) + (i - 2)) else R2 0| < (1e-8 : ℚ)) := by
      rw [← Rat.cast_abs]
      constructor
      · intro hlt
        have : ((1e-8 : ℚ) : ℝ) = (1e-8 : ℝ) := by norm_num
        rw [← this] at hlt
        exact_mod_cast hlt
      · intro hlt
        have : ((1e-8 : ℚ) : ℝ) = (1e-8 : ℝ) := by norm_num
        rw [← this]
        exact_mod_cast hlt
    by_cases hc : |if 1 < i then R2 (25 * i + i - 1) - R2 (25 * (i - 1) + (i - 2)) else R2 0| <
        (1e-8 : ℚ)
    · rw [if_pos hc, if_pos (hcond.mpr hc)]
    · rw [if_neg hc, if_neg (fun hk => hc (hcond.mp hk))]
      exact ih _ _ _ _

/-- A `romberg` run over the reals whose integrand agrees with a rational
function on all rational points equals the cast of the exact `ℚ` run. -/
lemma romberg_ratCast (fQ : ℚ → ℚ) (fR : ℝ → ℝ) (hf : ∀ q : ℚ, fR q = fQ q) (a b : ℚ) :
    romberg fR (a : ℝ) (b : ℝ) = ((romberg fQ a b : ℚ) : ℝ) := by
  simp only [romberg]
  rw [rombergLoop_ratCast fQ fR hf, upd_ratCast]
  rw [show ((b : ℝ) - (a : ℝ)) = ((b - a : ℚ) : ℝ) by push_cast; ring]
  rw [show (((b - a : ℚ) : ℝ) / 2 * (fR (a : ℚ) + fR (b : ℚ))) =
      (((b - a) / 2 * (fQ a + fQ b) : ℚ) : ℝ) by rw [hf, hf]; push_cast; ring]
  norm_num

end RombergRatCast

/-! ## Correctness of `isNumeric` -/

section IsNumericProof

lemma char_eq_of_toNat {a b : Char} (h : a.val.toNat = b.val.toNat) : a = b := by
  apply Char.ext
  apply UInt32.ext
  exact h

lemma mem_numericChars_iff (ch : Char) :
    ch ∈ numericChars ↔ (ch.isDigit = true ∨ ch = '.' ∨ ch = '-') := by
  constructor
  · intro h
    simp only [numericChars, List.mem_cons, List.not_mem_nil, or_false] at h
    rcases h with h|h|h|h|h|h|h|h|h|h|h|h <;> subst h <;> decide
  · intro h
    have hmem : ∀ d : Char, d ∈ numericChars → ch.val.toNat = d.val.toNat →
        ch ∈ numericChars := fun d hd hv => (char_eq_of_toNat hv) ▸ hd
    rcases h with h | h | h
    · have hd := h
      simp only [Char.isDigit, Bool.and_eq_true, decide_eq_true_eq] at hd
      obtain ⟨h1, h2⟩ := hd
      have h1' : 48 ≤ ch.val.toNat := h1
      have h2' : ch.val.toNat ≤ 57 := h2
      have hn : ch.val.toNat = 48 ∨ ch.val.toNat = 49 ∨ ch.val.toNat = 50 ∨
          ch.val.toNat = 51 ∨ ch.val.toNat = 52 ∨ ch.val.toNat = 53 ∨
          ch.val.toNat = 54 ∨ ch.val.toNat = 55 ∨ ch.val.toNat = 56 ∨
          ch.val.toNat = 57 := by omega
      rcases hn with h0|h0|h0|h0|h0|h0|h0|h0|h0|h0
      · exact hmem (Char.ofNat 48) (by decide) (h0.trans (by decide))
      · exact hmem (Char.ofNat 49) (by decide) (h0.trans (by decide))
      · exact hmem (Char.ofNat 50) (by decide) (h0.trans (by decide))
      · exact hmem (Char.ofNat 51) (by decide) (h0.trans (by decide))
      · exact hmem (Char.ofNat 52) (by decide) (h0.trans (by decide))
      · exact hmem (Char.ofNat 53) (by decide) (h0.trans (by decide))
      · exact hmem (Char.ofNat 54) (by decide) (h0.trans (by decide))
      · exact hmem (Char.ofNat 55) (by decide) (h0.trans (by decide))
      · exact hmem (Char.ofNat 56) (by decide) (h0.trans (by decide))
      · exact hmem (Char.ofNat 57) (by decide) (h0.trans (by decide))
    · subst h; decide
    · subst h; decide

lemma findCharIdx_eq_none {p : Char → Bool} {l : List Char} :
    findCharIdx p l = none ↔ ∀ ch ∈ l, ¬ p ch = true := by
  induction l with
  | nil => simp [findCharIdx]
  | cons a t ih =>
    rw [findCharIdx]
    by_cases hp : p a = true
    · simp [hp]
    · simp [hp, Option.map_eq_none', ih]

lemma findCharIdx_isSome_iff {p : Char → Bool} {l : List Char} :
    (findCharIdx p l).isSome = true ↔ ∃ ch ∈ l, p ch = true := by
  constructor
  · intro h
    by_contra hno
    push_neg at hno
    rw [findCharIdx_eq_none.mpr hno] at h
    simp at h
  · rintro ⟨ch, hch, hp⟩
    by_contra h
    exact findCharIdx_eq_none.mp (Option.not_isSome_iff_eq_none.mp h) ch hch hp

lemma findDot_none_iff (l : List Char) :
    findCharIdx (fun ch => ch == '.') l = none ↔ l.count '.' = 0 := by
  rw [findCharIdx_eq_none, List.count_eq_zero]
  simp only [beq_iff_eq]
  constructor
  · intro h hm
    exact h '.' hm rfl
  · intro h ch hch he
    subst he
    exact h hch

lemma dotPart_iff (l : List Char) :
    (match findCharIdx (fun ch => ch == '.') l with
     | none => true
     | some i => !(findCharIdx (fun ch => ch == '.') (l.drop (i + 1))).isSome) = true
    ↔ l.count '.' ≤ 1 := by
  induction l with
  | nil => simp [findCharIdx]
  | cons a t ih =>
    by_cases ha : a = '.'
    · subst ha
      rw [findCharIdx]
      simp only [beq_self_eq_true, if_true, List.drop_succ_cons, List.drop_zero,
        List.count_cons]
      cases hf : findCharIdx (fun ch => ch == '.') t with
      | none =>
        have h0 : t.count '.' = 0 := (findDot_none_iff t).mp hf
        simp [hf, h0]
      | some j =>
        have h1 : 0 < t.count '.' := by
          have hex : ∃ ch ∈ t, (ch == '.') = true := by
            apply findCharIdx_isSome_iff.mp
            rw [hf]; rfl
          obtain ⟨ch, hch, he⟩ := hex
          rw [beq_iff_eq] at he
          subst he
          exact List.count_pos_iff.mpr hch
        simp [hf]
        omega
    · rw [findCharIdx]
      have hbeq : (a == '.') = false := by simp [ha]
      have hcnt : (a :: t).count '.' = t.count '.' := by
        simp [List.count_cons, hbeq]
      simp only [hbeq, Bool.false_eq_true, if_false, hcnt]
      cases hf : findCharIdx (fun ch => ch == '.') t with
      | none =>
        have h0 : t.count '.' = 0 := (findDot_none_iff t).mp hf
        simp [h0]
      | some j =>
        simp only [Option.map_some']
        rw [show ((a :: t).drop (j + 1 + 1)) = t.drop (j + 1) from List.drop_succ_cons]
        rw [hf] at ih
        exact ih

lemma minusPart_iff (l : List Char) :
    findCharIdx (fun ch => ch == '-') (l.drop 1) = none ↔
      (∀ i : ℕ, (hi : i < l.length) → l.get ⟨i, hi⟩ = '-' → i = 0) := by
  rw [findCharIdx_eq_none]
  simp only [beq_iff_eq]
  cases l with
  | nil => simp
  | cons a t =>
    simp only [List.drop_succ_cons, List.drop_zero]
    constructor
    · intro h i hi hg
      match i with
      | 0 => rfl
      | j + 1 =>
        exfalso
        have hj : j < t.length := by simpa [List.length_cons] using hi
        have hmem : t.get ⟨j, hj⟩ ∈ t := t.get_mem _ _
        exact h _ hmem hg
    · intro h ch hch he
      subst he
      obtain ⟨⟨j, hj⟩, hg⟩ := List.mem_iff_get.mp hch
      have hlt : j + 1 < (a :: t).length := by simp [List.length_cons]; omega
      have := h (j + 1) hlt (by simpa using hg)
      omega

lemma contains_iff_mem_chars (l : List Char) (ch : Char) :
    l.contains ch = true ↔ ch ∈ l := by
  simp [List.contains]

/-- Claim **C9** — the validator `isNumeric` returns true exactly for the
tokens made only of digits, at most one decimal point, and at most one minus
sign, the latter only in the leading position. -/
theorem isNumeric_iff (text : List Char) :
    isNumeric text = true ↔ SignedDecimal text := by
  rw [isNumeric, SignedDecimal]
  by_cases h1 : (findCharIdx (fun ch => !(numericChars.contains ch)) text).isSome = true
  · rw [if_pos h1]
    simp only [Bool.false_eq_true, false_iff]
    rintro ⟨hclass, -, -⟩
    obtain ⟨ch, hch, hbad⟩ := findCharIdx_isSome_iff.mp h1
    rw [Bool.not_eq_true'] at hbad
    have : ch ∈ numericChars := (mem_numericChars_iff ch).mpr (hclass ch hch)
    rw [← contains_iff_mem_chars] at this
    rw [this] at hbad
    cases hbad
  · rw [if_neg h1]
    have h1n : findCharIdx (fun ch => !(numericChars.contains ch)) text = none :=
      Option.not_isSome_iff_eq_none.mp h1
    by_cases h2 : (findCharIdx (fun ch => ch == '-') (text.drop 1)).isSome = true
    · rw [if_pos h2]
      simp only [Bool.false_eq_true, false_iff]
      rintro ⟨-, -, hidx⟩
      rw [(minusPart_iff text).mpr hidx] at h2
      cases h2
    · rw [if_neg h2]
      have h2n : findCharIdx (fun ch => ch == '-') (text.drop 1) = none :=
        Option.not_isSome_iff_eq_none.mp h2
      rw [dotPart_iff]
      constructor
      · intro hcount
        refine ⟨?_, hcount, (minusPart_iff text).mp h2n⟩
        intro ch hch
        have hcontains := findCharIdx_eq_none.mp h1n ch hch
        rw [Bool.not_eq_true, Bool.not_eq_false'] at hcontains
        exact (mem_numericChars_iff ch).mp ((contains_iff_mem_chars _ _).mp hcontains)
      · rintro ⟨-, hcount, -⟩
        exact hcount

end IsNumericProof

/-! ## Further helper lemmas -/

lemma snapOmegak_eq (m l : ℝ) :
    snapOmegak m l = if |1 - m - l| ≤ epsF64 then 0 else 1 - m - l := by
  rw [snapOmegak]; norm_num

lemma CUBE_eq_pow (x : ℝ) : CUBE x = x ^ 3 := by rw [CUBE]; ring

lemma G_pos : (0:ℝ) < G := by rw [G]; norm_num

lemma kmPerMpc_pos : (0:ℝ) < kmPerMpc := by rw [kmPerMpc]; norm_num

lemma c_pos : (0:ℝ) < c := by rw [c]; norm_num

lemma epsF64_pos : (0:ℝ) < epsF64 := by rw [epsF64]; norm_num

lemma badf_zero : badf 0 = 0 := by
  rw [badf, if_neg (by norm_num), if_neg]
  rintro ⟨i, hi⟩
  have h : (0:ℝ) < (1/2) ^ i := by positivity
  rw [← hi] at h
  exact lt_irrefl 0 h

lemma badf_one : badf 1 = 2 := by rw [badf, if_pos rfl]

lemma badf_pow (i : ℕ) (hi : 1 ≤ i) : badf ((1/2) ^ i) = 7 / 8 * 8 ^ i := by
  have hlt : ((1/2:ℝ)) ^ i < 1 :=
    pow_lt_one₀ (by norm_num) (by norm_num) (by omega)
  rw [badf, if_neg hlt.ne, if_pos ⟨i, rfl⟩]
  rw [div_eq_iff (by positivity)]
  rw [← pow_mul, mul_comm i 3, pow_mul]
  rw [mul_assoc, ← mul_pow]
  norm_num

lemma badf_odd_mult (i j : ℕ) (hi : 1 ≤ i) (hj : 1 ≤ j) :
    badf ((2 * (j:ℝ) + 1) * (1/2) ^ i) = 0 := by
  have h1 : ((1/2:ℝ)) ^ i * (2:ℝ) ^ i = 1 := by rw [← mul_pow]; norm_num
  rw [badf, if_neg, if_neg]
  · rintro ⟨m, hm⟩
    have h2 : ((1/2:ℝ)) ^ m * (2:ℝ) ^ m = 1 := by rw [← mul_pow]; norm_num
    have key : (2 * (j:ℝ) + 1) * 2 ^ m = 2 ^ i := by
      calc (2 * (j:ℝ) + 1) * 2 ^ m
          = ((2 * (j:ℝ) + 1) * ((1/2) ^ i * 2 ^ i)) * 2 ^ m := by rw [h1]; ring
        _ = (((2 * (j:ℝ) + 1) * (1/2) ^ i) * 2 ^ i) * 2 ^ m := by ring
        _ = ((1/2) ^ m * 2 ^ i) * 2 ^ m := by rw [hm]
        _ = ((1/2) ^ m * 2 ^ m) * 2 ^ i := by ring
        _ = 2 ^ i := by rw [h2]; ring
    have keyN : (2 * j + 1) * 2 ^ m = 2 ^ i := by exact_mod_cast key
    have hdvd : (2 * j + 1) ∣ 2 ^ i := ⟨2 ^ m, keyN.symm⟩
    have hcop : Nat.Coprime (2 * j + 1) 2 := by
      rw [Nat.coprime_two_right]
      exact ⟨j, by ring⟩
    have hone := Nat.Coprime.eq_one_of_dvd (hcop.pow_right i) hdvd
    omega
  · intro heq
    have key : (2 * (j:ℝ) + 1) = 2 ^ i := by
      calc (2 * (j:ℝ) + 1)
          = ((2 * (j:ℝ) + 1) * ((1/2) ^ i * 2 ^ i)) := by rw [h1]; ring
        _ = ((2 * (j:ℝ) + 1) * (1/2) ^ i) * 2 ^ i := by ring
        _ = 1 * 2 ^ i := by rw [heq]
        _ = 2 ^ i := one_mul _
    have keyN : 2 * j + 1 = 2 ^ i := by exact_mod_cast key
    have heven : Even (2 ^ i) := by
      rw [Nat.even_pow]
      exact ⟨even_two, by omega⟩
    obtain ⟨r, hr⟩ := heven
    omega

lemma four_pow_sub_one_pos (j : ℕ) : (0:ℝ) < (4:ℝ) ^ (j+1) - 1 := by
  have h4 : (4:ℝ) = 4 ^ 1 := (pow_one 4).symm
  have h : (4:ℝ) ^ 1 ≤ 4 ^ (j+1) := pow_le_pow_right₀ (by norm_num) (by omega)
  rw [pow_one] at h
  linarith

lemma mu_one_le (j : ℕ) : 1 ≤ mu j := by
  induction j with
  | zero => rw [mu]
  | succ j ih =>
    rw [mu]
    have hd := four_pow_sub_one_pos j
    have hn : (4:ℝ) ^ (j+1) - 1 ≤ (4:ℝ) ^ (j+1) - 1/4 := by linarith
    calc (1:ℝ) ≤ mu j := ih
      _ = mu j * (((4:ℝ) ^ (j+1) - 1) / ((4:ℝ) ^ (j+1) - 1)) := by
          rw [div_self hd.ne']; ring
      _ ≤ mu j * (((4:ℝ) ^ (j+1) - 1/4) / ((4:ℝ) ^ (j+1) - 1)) := by
          apply mul_le_mul_of_nonneg_left _ (by linarith)
          exact (div_le_div_iff_of_pos_right hd).mpr hn
      _ = mu j * ((4:ℝ) ^ (j+1) - 1/4) / ((4:ℝ) ^ (j+1) - 1) := by ring

lemma mu_le_succ (j : ℕ) : mu j ≤ mu (j + 1) := by
  rw [mu]
  have hd := four_pow_sub_one_pos j
  have hn : (4:ℝ) ^ (j+1) - 1 ≤ (4:ℝ) ^ (j+1) - 1/4 := by linarith
  calc mu j = mu j * (((4:ℝ) ^ (j+1) - 1) / ((4:ℝ) ^ (j+1) - 1)) := by
        rw [div_self hd.ne']; ring
    _ ≤ mu j * (((4:ℝ) ^ (j+1) - 1/4) / ((4:ℝ) ^ (j+1) - 1)) := by
        apply mul_le_mul_of_nonneg_left _ (by linarith [mu_one_le j])
        exact (div_le_div_iff_of_pos_right hd).mpr hn
    _ = mu j * ((4:ℝ) ^ (j+1) - 1/4) / ((4:ℝ) ^ (j+1) - 1) := by ring

lemma mu_step (i jp : ℕ) (hi : 1 ≤ i) :
    mu jp * 4 ^ i + (mu jp * 4 ^ i - mu jp * 4 ^ (i-1)) / ((4:ℝ) ^ (jp+1) - 1) =
      mu (jp+1) * 4 ^ i := by
  obtain ⟨ip, rfl⟩ : ∃ ip, i = ip + 1 := ⟨i - 1, by omega⟩
  rw [Nat.add_sub_cancel, mu]
  have hd := four_pow_sub_one_pos jp
  field_simp
  ring

lemma trapSum_badf (i : ℕ) (hi : 1 ≤ i) :
    ∀ count : ℕ, 1 ≤ count → trapSum badf 0 ((1/2) ^ i) count = 7/8 * 8 ^ i := by
  intro count
  induction count with
  | zero => omega
  | succ cp ih =>
    intro _
    rw [trapSum]
    by_cases hcp : 1 ≤ cp
    · rw [ih hcp]
      rw [show ((0:ℝ) + (2 * (cp:ℝ) + 1) * (1/2) ^ i) = (2 * (cp:ℝ) + 1) * (1/2) ^ i by ring]
      rw [badf_odd_mult i cp hi hcp]
      ring
    · have hcp0 : cp = 0 := by omega
      subst hcp0
      rw [trapSum]
      rw [show ((0:ℝ) + (2 * ((0:ℕ):ℝ) + 1) * (1/2) ^ i) = (1/2) ^ i by push_cast; ring]
      rw [badf_pow i hi]
      ring

/-- Filling one row of the forced table: starting from the row-`i` trapezoid
entry, the inner extrapolation loop produces `R[i][j] = mu j · 4^i` for every
`j < i`, and touches no cell below `25·i`. -/
lemma extrapSteps_badfill (i : ℕ) (hi : 1 ≤ i) (hi24 : i ≤ 24) :
    ∀ (steps j : ℕ) (R : ℕ → ℝ) (m : ℕ), m = 4 ^ (j-1) → 1 ≤ j → j + steps = i →
      (∀ jp, jp < j → R (25*i + jp) = mu jp * 4 ^ i) →
      (∀ jp, jp ≤ i - 2 → R (25*(i-1) + jp) = mu jp * 4 ^ (i-1)) →
      (∀ jp, jp < i → extrapSteps i R m j steps (25*i + jp) = mu jp * 4 ^ i) ∧
      (∀ n, n < 25*i → extrapSteps i R m j steps n = R n) := by
  intro steps
  induction steps with
  | zero =>
    intro j R m hm hj hji hrow hprev
    exact ⟨fun jp hjp => hrow jp (by omega), fun n hn => rfl⟩
  | succ steps ih =>
    intro j R m hm hj hji hrow hprev
    simp only [extrapSteps]
    have hval : R (25*i + j - 1) + (R (25*i + j - 1) - R (25*(i-1) + j - 1)) /
        (((m * 4 : ℕ) : ℝ) - 1) = mu j * 4 ^ i := by
      have e1 : 25*i + j - 1 = 25*i + (j-1) := by omega
      have e2 : 25*(i-1) + j - 1 = 25*(i-1) + (j-1) := by omega
      rw [e1, e2, hrow (j-1) (by omega), hprev (j-1) (by omega)]
      have e3 : ((m * 4 : ℕ) : ℝ) = (4:ℝ) ^ ((j-1)+1) := by
        rw [hm]
        push_cast
        rw [pow_succ]
      rw [e3, mu_step i (j-1) hi]
      rw [show (j-1)+1 = j by omega]
    have hrowp : ∀ jp, jp < j + 1 →
        upd R (25*i + j) (R (25*i + j - 1) + (R (25*i + j - 1) - R (25*(i-1) + j - 1)) /
          (((m * 4 : ℕ) : ℝ) - 1)) (25*i + jp) = mu jp * 4 ^ i := by
      intro jp hjp
      by_cases hje : jp = j
      · subst hje
        rw [upd, if_pos rfl]
        exact hval
      · rw [upd, if_neg (by omega)]
        exact hrow jp (by omega)
    have hprevp : ∀ jp, jp ≤ i - 2 →
        upd R (25*i + j) (R (25*i + j - 1) + (R (25*i + j - 1) - R (25*(i-1) + j - 1)) /
          (((m * 4 : ℕ) : ℝ) - 1)) (25*(i-1) + jp) = mu jp * 4 ^ (i-1) := by
      intro jp hjp
      rw [upd, if_neg (by omega)]
      exact hprev jp hjp
    obtain ⟨c1, c2⟩ := ih (j+1) _ (m*4)
      (by rw [hm, Nat.add_sub_cancel, ← pow_succ, show j - 1 + 1 = j by omega])
      (by omega) (by omega) hrowp hprevp
    refine ⟨c1, fun n hn => ?_⟩
    rw [c2 n hn, upd, if_neg (by omega)]

/-- On `badf` over `[0, 1]` the tolerance test never fires: every row ends
with `|dR| ≥ 3` (row 1 has `dR = R[0] = 1`), so the loop runs to the cap. -/
lemma rombergLoopConv_badf :
    ∀ (fuel i : ℕ) (R : ℕ → ℝ) (h : ℝ) (np : ℕ), 1 ≤ i → i + fuel = 25 →
      1 ≤ np → h = (1/2:ℝ) ^ (i-1) →
      (∀ jp, jp ≤ i - 2 → R (25*(i-1) + jp) = mu jp * 4 ^ (i-1)) →
      rombergLoopConv badf 0 fuel R h np i = none := by
  intro fuel
  induction fuel with
  | zero => intro i R h np _ _ _ _ _; rfl
  | succ fuel ih =>
    intro i R h np hi hif hnp hh hprev
    have hi24 : i ≤ 24 := by omega
    have hi1 : i - 1 + 1 = i := by omega
    simp only [rombergLoopConv]
    have hstep : h / 2 = (1/2:ℝ) ^ i := by
      rw [hh, ← hi1, pow_succ, Nat.add_sub_cancel]
      ring
    have hcount : np * 2 / 2 = np := by omega
    have hT : trapSum badf 0 (h/2) (np * 2 / 2) = 7/8 * 8 ^ i := by
      rw [hstep, hcount]
      exact trapSum_badf i hi np hnp
    have hR0 : R (25*(i-1)) = mu 0 * 4 ^ (i-1) := by
      have h0 := hprev 0 (by omega)
      rwa [Nat.add_zero] at h0
    have h48 : ((1/2:ℝ)) ^ i * 8 ^ i = 4 ^ i := by rw [← mul_pow]; norm_num
    have h4 : (4:ℝ) ^ i = 4 ^ (i-1) * 4 := by rw [← pow_succ, hi1]
    have hvT : 0.5 * R (25*(i-1)) + h/2 * trapSum badf 0 (h/2) (np * 2 / 2) =
        mu 0 * 4 ^ i := by
      rw [hR0, hT, hstep, mu]
      calc 0.5 * (1 * 4 ^ (i-1)) + (1/2:ℝ) ^ i * (7/8 * 8 ^ i)
          = 0.5 * 4 ^ (i-1) + 7/8 * ((1/2:ℝ) ^ i * 8 ^ i) := by ring
        _ = 0.5 * 4 ^ (i-1) + 7/8 * 4 ^ i := by rw [h48]
        _ = 1 * 4 ^ i := by rw [h4]; ring
    have hrow1 : ∀ jp, jp < 1 →
        upd R (25*i) (0.5 * R (25*(i-1)) + h/2 * trapSum badf 0 (h/2) (np * 2 / 2))
          (25*i + jp) = mu jp * 4 ^ i := by
      intro jp hjp
      have hjp0 : jp = 0 := by omega
      subst hjp0
      rw [Nat.add_zero, upd, if_pos rfl]
      exact hvT
    have hprev1 : ∀ jp, jp ≤ i - 2 →
        upd R (25*i) (0.5 * R (25*(i-1)) + h/2 * trapSum badf 0 (h/2) (np * 2 / 2))
          (25*(i-1) + jp) = mu jp * 4 ^ (i-1) := by
      intro jp hjp
      rw [upd, if_neg (by omega)]
      exact hprev jp hjp
    obtain ⟨hfill, hlow⟩ := extrapSteps_badfill i hi hi24 (i-1) 1 _ 1 (by norm_num)
      (le_refl 1) (by omega) hrow1 hprev1
    have hnext : ∀ jp, jp ≤ (i+1) - 2 →
        extrapSteps i
          (upd R (25*i) (0.5 * R (25*(i-1)) + h/2 * trapSum badf 0 (h/2) (np * 2 / 2)))
          1 1 (i-1) (25*((i+1)-1) + jp) = mu jp * 4 ^ ((i+1)-1) := by
      intro jp hjp
      rw [Nat.add_sub_cancel]
      exact hfill jp (by omega)
    by_cases h1i : 1 < i
    · rw [if_pos h1i]
      have hd1 : 25*i + i - 1 = 25*i + (i-1) := by omega
      have hdiag : extrapSteps i
          (upd R (25*i) (0.5 * R (25*(i-1)) + h/2 * trapSum badf 0 (h/2) (np * 2 / 2)))
          1 1 (i-1) (25*i + i - 1) = mu (i-1) * 4 ^ i := by
        rw [hd1]
        exact hfill (i-1) (by omega)
      have hsub : extrapSteps i
          (upd R (25*i) (0.5 * R (25*(i-1)) + h/2 * trapSum badf 0 (h/2) (np * 2 / 2)))
          1 1 (i-1) (25*(i-1) + (i-2)) = mu (i-2) * 4 ^ (i-1) := by
        rw [hlow _ (by omega), upd, if_neg (by omega)]
        exact hprev (i-2) (le_refl _)
      rw [hdiag, hsub]
      have hmono : mu (i-2) ≤ mu (i-1) := by
        have := mu_le_succ (i-2)
        rwa [show i - 2 + 1 = i - 1 by omega] at this
      have hmu2 : (1:ℝ) ≤ mu (i-2) := mu_one_le _
      have hpow : (1:ℝ) ≤ (4:ℝ) ^ (i-1) := by
        have h14 : (1:ℝ) ^ (i-1) ≤ (4:ℝ) ^ (i-1) :=
          pow_le_pow_left₀ (by norm_num) (by norm_num) _
        rwa [one_pow] at h14
      have hge : (3:ℝ) ≤ mu (i-1) * 4 ^ i - mu (i-2) * 4 ^ (i-1) := by
        rw [h4]
        nlinarith [hmono, hmu2, hpow]
      rw [if_neg]
      · exact ih (i+1) _ (h/2) (np*2) (by omega) (by omega) (by omega)
          (by rw [hstep, Nat.add_sub_cancel]) hnext
      · rw [abs_of_pos (by linarith)]
        push_neg
        calc (1e-8 : ℝ) ≤ 3 := by norm_num
          _ ≤ _ := hge
    · rw [if_neg h1i]
      have hi1eq : i = 1 := by omega
      subst hi1eq
      have hzero : extrapSteps 1
          (upd R (25*1) (0.5 * R (25*(1-1)) + h/2 * trapSum badf 0 (h/2) (np * 2 / 2)))
          1 1 (1-1) 0 = 1 := by
        rw [hlow 0 (by omega), upd, if_neg (by omega)]
        have h00 := hprev 0 (by omega)
        rw [show 25*(1-1) + 0 = 0 by norm_num] at h00
        rw [h00, mu]
        norm_num
      rw [hzero]
      rw [if_neg (by norm_num)]
      exact ih 2 _ (h/2) (np*2) (by omega) (by omega) (by omega)
        (by rw [hstep]) hnext

/-- The Romberg run on `badf` over `[0, 1]` exhausts its 25 rows. -/
lemma rombergConv_badf_none : rombergConv badf 0 1 = none := by
  simp only [rombergConv]
  apply rombergLoopConv_badf 24 1 _ _ 1 (le_refl 1) rfl (le_refl 1)
  · norm_num
  · intro jp hjp
    have hjp0 : jp = 0 := by omega
    subst hjp0
    rw [show 25*(1-1) + 0 = 0 by norm_num]
    rw [upd, if_pos rfl]
    rw [badf_zero, badf_one, mu]
    norm_num

/-! ## Monotonicity of `dC` in the redshift (C8) -/

lemma trapSum_const_one (a h : ℝ) (count : ℕ) :
    trapSum (fun _ : ℝ => (1:ℝ)) a h count = count := by
  induction count with
  | zero => simp [trapSum]
  | succ n ih => rw [trapSum, ih]; push_cast; ring

/-- On a constant-`1` integrand the Romberg run returns exactly `z` (row 1
when `|z| < 1e-8` via the `dR = R[0]` quirk, row 2 otherwise). -/
lemma romberg_const_one (z : ℝ) : romberg (fun _ : ℝ => (1:ℝ)) 0 z = z := by
  simp only [romberg]
  rw [show (24:ℕ) = 23 + 1 from rfl, rombergLoop]
  simp only [extrapSteps, trapSum, upd]
  norm_num
  by_cases hz : |z| < 1 / 100000000
  · rw [if_pos hz]; ring
  · rw [if_neg hz]
    rw [show (23:ℕ) = 22 + 1 from rfl, rombergLoop]
    simp only [extrapSteps, trapSum, upd]
    norm_num
    have hexpr : |1 / 2 * (1 / 2 * z + z / 2) + z / 2 +
        (1 / 2 * (1 / 2 * z + z / 2) - 1 / 2 * z) / 3 - (1 / 2 * z + z / 2)| <
        (1 / 100000000 : ℝ) := by
      rw [show (1 / 2 * (1 / 2 * z + z / 2) + z / 2 +
        (1 / 2 * (1 / 2 * z + z / 2) - 1 / 2 * z) / 3 - (1 / 2 * z + z / 2) : ℝ) = 0 from by
          ring]
      norm_num
    rw [if_pos hexpr]
    ring

lemma snapOmegak_zero_one : snapOmegak 0 1 = 0 := by
  rw [snapOmegak_eq, if_pos]
  rw [show |1 - (0:ℝ) - 1| = 0 by norm_num]
  exact le_of_lt epsF64_pos

lemma snapOmegak_zero_zero : snapOmegak 0 0 = 1 := by
  rw [snapOmegak_eq, if_neg]
  · norm_num
  · rw [epsF64]
    rw [show |1 - (0:ℝ) - 0| = 1 by norm_num]
    norm_num

/-! ## The claims -/

/-- Claim **C1** (code bug) — The Romberg integrator is claimed to return the most
refined (best available) estimate when it hits the 25-row cap without
converging.  In fact the run returns the early-exit value when the tolerance
test fires, and otherwise returns `R.back() = R[25·25−1] = R[624]` — a cell
the table-filling writes (`R[25·i + j]`, `i ≤ 24`, `j ≤ i − 1 ≤ 23`, largest
index 623) never touch, which therefore still holds its `0.0`
value-initialization: on cap exhaustion `romberg` returns `0`, not the most
refined estimate. -/
theorem romberg_cap_returns_zero :
    (∀ (f : ℝ → ℝ) (a b : ℝ), romberg f a b = (rombergConv f a b).getD 0) ∧
    (∃ f : ℝ → ℝ, ∃ a b : ℝ, rombergConv f a b = none ∧ romberg f a b = 0) := by
  have hmain : ∀ (f : ℝ → ℝ) (a b : ℝ), romberg f a b = (rombergConv f a b).getD 0 := by
    intro f a b
    simp only [romberg, rombergConv]
    apply rombergLoop_eq_conv f a 24 _ _ 1 1 (by norm_num) (by norm_num)
    rw [upd, if_neg (by norm_num)]
  refine ⟨hmain, badf, 0, 1, rombergConv_badf_none, ?_⟩
  rw [hmain, rombergConv_badf_none]
  rfl

/-- Claim **C2** (code bug) — `setCosmology` is claimed to keep a previously set
nonzero redshift and recompute all distances from it with the new parameters.
In fact `init` clears `z_` to `0` before the recompute guard `if (z_)
setDistances();` is evaluated, so the guard is dead code: after any
`setCosmology` call the state is exactly the freshly-initialized state — the
redshift is reset to `0` and every distance field is zeroed, not recomputed. -/
theorem setCosmology_clears_redshift :
    ∀ (s : Cosmo) (h m l : ℝ),
      (setCosmology s h m l).z_ = 0 ∧
      (setCosmology s h m l).dC_ = 0 ∧
      (setCosmology s h m l).dA_ = 0 ∧
      (setCosmology s h m l).dL_ = 0 ∧
      setCosmology s h m l = init h m l := by
  intro s h m l
  refine ⟨?_, ?_, ?_, ?_, setCosmology_eq_init s h m l⟩ <;>
    rw [setCosmology_eq_init] <;> simp

/-- Claim **C3** (counterexample) — the valid parameter triple `(70, 0, −1)`
(`H0 > 0`, `OmegaM ≥ 0`, `OmegaL` any real) yields a *negative* critical
density at `z = 0`, refuting the claim that `rhoCrit` is positive for every
valid triple. -/
theorem setRedshift_zero_rhoCrit_cex :
    0 < (70:ℝ) ∧ 0 ≤ (0:ℝ) ∧ ¬ 0 < (setRedshift (init 70 0 (-1)) 0).rhoCrit_ := by
  refine ⟨by norm_num, le_refl 0, ?_⟩
  rw [not_lt, setRedshift, setDistances_rhoCrit]
  have hC : (0:ℝ) < 3.0 / 8.0 / PI * SQR ((70:ℝ) / kmPerMpc) / G := by
    apply div_pos _ G_pos
    apply mul_pos (div_pos (by norm_num) PI_pos)
    rw [SQR]
    have h70 : (0:ℝ) < 70 / kmPerMpc := div_pos (by norm_num) kmPerMpc_pos
    exact mul_pos h70 h70
  show 3.0 / 8.0 / PI * SQR ((70:ℝ) / kmPerMpc) / G * ((-1) + CUBE (1 + (0:ℝ)) * 0) ≤ 0
  rw [CUBE]
  nlinarith [hC]

/-- Claim **C3** (amended) — for every valid parameter triple (`H0 > 0`,
`OmegaM ≥ 0`, any `OmegaL`), `setRedshift 0` zeroes all distance/time/volume
quantities exactly and computes
`rhoCrit = 3/(8π)·(H0/kmPerMpc)²/G·(OmegaL + OmegaM)`; that value is positive
whenever `OmegaM + OmegaL > 0` (it can be zero or negative otherwise). -/
theorem setRedshift_zero_values (s : Cosmo) (hH : 0 < s.H0_) (_hM : 0 ≤ s.OmegaM_) :
    (setRedshift s 0).dA_ = 0 ∧ (setRedshift s 0).dL_ = 0 ∧ (setRedshift s 0).dC_ = 0 ∧
    (setRedshift s 0).dM_ = 0 ∧ (setRedshift s 0).VC_ = 0 ∧ (setRedshift s 0).tL_ = 0 ∧
    (setRedshift s 0).scale_ = 0 ∧
    (setRedshift s 0).rhoCrit_ =
      3 / (8 * Real.pi) * SQR (s.H0_ / kmPerMpc) / G * (s.OmegaL_ + s.OmegaM_) ∧
    (0 < s.OmegaM_ + s.OmegaL_ → 0 < (setRedshift s 0).rhoCrit_) := by
  have hz : ({ s with z_ := (0:ℝ) } : Cosmo).z_ = 0 := rfl
  obtain ⟨h1, h2, h3, h4, h5, h6, h7⟩ := setDistances_of_z_zero { s with z_ := 0 } hz
  have hrho : (setRedshift s 0).rhoCrit_ =
      3 / (8 * Real.pi) * SQR (s.H0_ / kmPerMpc) / G * (s.OmegaL_ + s.OmegaM_) := by
    rw [setRedshift, setDistances_rhoCrit]
    show 3.0 / 8.0 / PI * SQR (s.H0_ / kmPerMpc) / G *
        (s.OmegaL_ + CUBE (1 + (0:ℝ)) * s.OmegaM_) = _
    rw [PI_eq_pi, CUBE]
    ring
  refine ⟨h4, h5, h1, h2, h3, h6, h7, hrho, ?_⟩
  intro hsum
  rw [hrho]
  have hx : 0 < s.H0_ / kmPerMpc := div_pos hH kmPerMpc_pos
  have hC : 0 < 3 / (8 * Real.pi) * SQR (s.H0_ / kmPerMpc) / G := by
    apply div_pos _ G_pos
    apply mul_pos (div_pos (by norm_num) (by positivity))
    rw [SQR]
    exact mul_pos hx hx
  exact mul_pos hC (by linarith)

/-- Witness for the amended C3 at the concrete valid triple `(70, 0.3, 0.7)`. -/
theorem setRedshift_zero_values_witness :
    0 < (setRedshift (init 70 0.3 0.7) 0).rhoCrit_ :=
  (setRedshift_zero_values (init 70 0.3 0.7) (by norm_num) (by norm_num)).2.2.2.2.2.2.2.2
    (by norm_num)

/-- Claim **C4** — in every reachable state, `Omegak_` is exactly
`1 − OmegaM − OmegaL`, snapped to exactly `0` when that quantity is within
machine epsilon of `0`; no public operation can break this. -/
theorem omegak_invariant (s : Cosmo) (hs : Reachable s) :
    (|1 - s.OmegaM_ - s.OmegaL_| ≤ epsF64 → s.Omegak_ = 0) ∧
    (¬ |1 - s.OmegaM_ - s.OmegaL_| ≤ epsF64 →
      s.Omegak_ = 1 - s.OmegaM_ - s.OmegaL_) := by
  have h := reachable_omegak hs
  rw [snapOmegak_eq] at h
  constructor
  · intro hle
    rw [h, if_pos hle]
  · intro hgt
    rw [h, if_neg hgt]

/-- Witness for C4 at the concrete reachable state `init 70 0 0`. -/
theorem omegak_invariant_witness :
    (|1 - (init 70 0 0).OmegaM_ - (init 70 0 0).OmegaL_| ≤ epsF64 →
      (init 70 0 0).Omegak_ = 0) ∧
    (¬ |1 - (init 70 0 0).OmegaM_ - (init 70 0 0).OmegaL_| ≤ epsF64 →
      (init 70 0 0).Omegak_ = 1 - (init 70 0 0).OmegaM_ - (init 70 0 0).OmegaL_) :=
  omegak_invariant _ (Reachable.construct 70 0 0)

/-- Claim **C5** — in every reachable state (constructors followed by any sequence
of `setCosmology`/`setRedshift` calls with `z ≥ 0`, copies included),
`dA = dM/(1+z)` and `dL = dM·(1+z)` hold exactly. -/
theorem dA_dL_consistency (s : Cosmo) (hs : Reachable s) :
    s.dA_ = s.dM_ / (1 + s.z_) ∧ s.dL_ = s.dM_ * (1 + s.z_) := by
  rcases reachable_rep hs with ⟨h, m, l, rfl⟩ | ⟨t, z, -, -, rfl⟩
  · simp
  · exact ⟨setDistances_dA _, setDistances_dL _⟩

/-- Witness for C5 at the concrete reachable state `setRedshift (init 70 0.3 0.7) 2`. -/
theorem dA_dL_consistency_witness :
    (setRedshift (init 70 0.3 0.7) 2).dA_ =
      (setRedshift (init 70 0.3 0.7) 2).dM_ / (1 + (setRedshift (init 70 0.3 0.7) 2).z_) ∧
    (setRedshift (init 70 0.3 0.7) 2).dL_ =
      (setRedshift (init 70 0.3 0.7) 2).dM_ * (1 + (setRedshift (init 70 0.3 0.7) 2).z_) :=
  dA_dL_consistency _ (Reachable.redshift (Reachable.construct 70 0.3 0.7) 2 (by norm_num))

/-- Claim **C6** — in every reachable state whose parameters satisfy
`OmegaM + OmegaL ≈ 1` within machine epsilon (so `Omegak` is snapped to `0`),
`dM = dC` and `VC = (4/3)·π·dC³/1e9`. -/
theorem flat_dM_VC (s : Cosmo) (hs : Reachable s)
    (hflat : |1 - s.OmegaM_ - s.OmegaL_| ≤ epsF64) :
    s.dM_ = s.dC_ ∧ s.VC_ = 4 / 3 * Real.pi * s.dC_ ^ 3 / 1e9 := by
  have hk : s.Omegak_ = 0 := by
    rw [reachable_omegak hs, snapOmegak_eq, if_pos hflat]
  rcases reachable_rep hs with ⟨h, m, l, heq⟩ | ⟨t, z, -, -, heq⟩
  · subst heq
    constructor
    · simp
    · simp
  · subst heq
    have hk2 : ({ t with z_ := z } : Cosmo).Omegak_ = 0 := by
      have : (setRedshift t z).Omegak_ = ({ t with z_ := z } : Cosmo).Omegak_ :=
        setDistances_Omegak _
      rw [← this]; exact hk
    obtain ⟨hdm, hvc⟩ := setDistances_flat { t with z_ := z } hk2
    refine ⟨hdm, ?_⟩
    show (setDistances { t with z_ := z }).VC_ = _
    rw [hvc, hdm]
    show 4 * PI * CUBE ((setRedshift t z).dC_) / 3 / 1e9 = _
    rw [PI_eq_pi, CUBE_eq_pow]
    ring

/-- Witness for C6 at the flat triple `(70, 0.3, 0.7)` with `z = 1`. -/
theorem flat_dM_VC_witness :
    (setRedshift (init 70 0.3 0.7) 1).dM_ = (setRedshift (init 70 0.3 0.7) 1).dC_ ∧
    (setRedshift (init 70 0.3 0.7) 1).VC_ =
      4 / 3 * Real.pi * (setRedshift (init 70 0.3 0.7) 1).dC_ ^ 3 / 1e9 :=
  flat_dM_VC _ (Reachable.redshift (Reachable.construct 70 0.3 0.7) 1 (by norm_num))
    (by norm_num [epsF64])

/-- Claim **C7** — the age of the universe is computed at construction (and at each
`setCosmology`) as `romberg (ageIntegrand) 0 (1 − ε) / H0 · kmPerMpc` with the
upper integration bound `1 − ε` strictly below `1` (ε the machine epsilon);
the integrand is `g(x) = 1/[(1+z)·E(z)·(1−x)²]` with `z = x/(1−x)`; and no
`setRedshift` call modifies the stored age. -/
theorem age_fixed_at_construction (h m l : ℝ) (s : Cosmo) (z : ℝ) :
    (init h m l).age_ =
      romberg (ageIntegrand m (snapOmegak m l) l) 0 (1 - epsF64) / h * kmPerMpc ∧
    1 - epsF64 < 1 ∧
    (setRedshift s z).age_ = s.age_ ∧
    (setCosmology s h m l).age_ = (init h m l).age_ ∧
    (∀ x : ℝ, ageIntegrand m (snapOmegak m l) l x =
      1 / ((1 + x / (1 - x)) * E m (snapOmegak m l) l (x / (1 - x)) * (1 - x) ^ 2)) := by
  refine ⟨by norm_num [init_age], by norm_num [epsF64], setRedshift_age s z,
    by rw [setCosmology_eq_init], ?_⟩
  intro x
  show 1.0 / (1 + x / (1 - x)) / E m (snapOmegak m l) l (x / (1 - x)) / SQR (1 - x) = _
  rw [SQR, div_div, div_div, pow_two]
  norm_num
  ring

/-- Claim **C10** — copying (`clone`, used by both the copy constructor and
`operator=`) preserves the source's parameters *and* its redshift, and the
copy is exactly the state obtained by constructing a fresh object with the
source's parameters and calling `setRedshift` with the source's redshift. -/
theorem clone_semantics (a t : Cosmo) :
    clone a = setRedshift (init a.H0_ a.OmegaM_ a.OmegaL_) a.z_ ∧
    (clone a).H0_ = a.H0_ ∧ (clone a).OmegaM_ = a.OmegaM_ ∧
    (clone a).OmegaL_ = a.OmegaL_ ∧ (clone a).z_ = a.z_ ∧
    copyCons a = clone a ∧ assign t a = clone a := by
  refine ⟨rfl, ?_, ?_, ?_, ?_, rfl, rfl⟩ <;> rw [clone] <;> simp

/-- Claim **C8** (amended) — at the parameter triple `(H0, ΩM, ΩΛ) = (70, 0, 1)`
the expansion function is `E ≡ 1`, the integrator returns the exact value
`z`, and `dC(z) = dH·z` is strictly increasing for `0 < z1 < z2`.  (For
general parameters the strict monotonicity claim fails at integrator
termination-row boundaries; see the counterexample at `(70, 0, 0)`.) -/
theorem dC_strictMono_trivialE (z1 z2 : ℝ) (h1 : 0 < z1) (h2 : z1 < z2) :
    (setRedshift (init 70 0 1) z1).dC_ < (setRedshift (init 70 0 1) z2).dC_ := by
  have hfun : inverseOfE 0 (snapOmegak 0 1) 1 = (fun _ : ℝ => (1:ℝ)) := by
    funext x
    rw [snapOmegak_zero_one, inverseOfE, E]
    rw [show ((0:ℝ) * CUBE (1 + x) + 0 * SQR (1 + x) + 1) = 1 by ring]
    rw [Real.sqrt_one]
    norm_num
  have key : ∀ z : ℝ, 0 < z → (setRedshift (init 70 0 1) z).dC_ = c / 70 * z := by
    intro z hz
    rw [setRedshift, setDistances_dC _ hz.ne']
    show c / 70 * romberg (inverseOfE 0 (snapOmegak 0 1) 1) 0 z = _
    rw [hfun, romberg_const_one]
  rw [key z1 h1, key z2 (h1.trans h2)]
  exact mul_lt_mul_of_pos_left h2 (div_pos c_pos (by norm_num))

/-- Witness for the amended C8 at `z1 = 1 < z2 = 2`. -/
theorem dC_strictMono_trivialE_witness :
    (setRedshift (init 70 0 1) 1).dC_ < (setRedshift (init 70 0 1) 2).dC_ :=
  dC_strictMono_trivialE 1 2 (by norm_num) (by norm_num)

set_option maxRecDepth 100000 in
/-- Claim **C8** (counterexample) — at the valid triple `(70, 0, 0)` (where
`E(z) = 1 + z` exactly), the redshifts `z1 = 0.120483451740 < z2 =
0.120483451741` straddle the boundary between termination at row 3 and row 4
of the Romberg table, and the returned estimate *decreases*: `dC(z2) <
dC(z1)`, refuting strict monotonicity of `dC` in `z`. -/
theorem dC_monotonicity_cex :
    0 < (0.120483451740 : ℝ) ∧ (0.120483451740 : ℝ) < (0.120483451741 : ℝ) ∧
    (setRedshift (init 70 0 0) 0.120483451741).dC_ <
      (setRedshift (init 70 0 0) 0.120483451740).dC_ := by
  refine ⟨by norm_num, by norm_num, ?_⟩
  have hfR : ∀ q : ℚ, inverseOfE 0 1 0 (q : ℝ) = ((1 / |1 + q| : ℚ) : ℝ) := by
    intro q
    rw [inverseOfE, E]
    push_cast
    rw [show ((0:ℝ) * CUBE (1 + (q:ℝ)) + 1 * SQR (1 + (q:ℝ)) + 0) = ((1:ℝ) + (q:ℝ))^2 by
      rw [SQR]; ring]
    rw [Real.sqrt_sq_eq_abs]
    norm_num
  have key : ∀ zq : ℚ, 0 < zq → (setRedshift (init 70 0 0) (zq : ℝ)).dC_ =
      c / 70 * ((romberg (fun q : ℚ => 1 / |1 + q|) 0 zq : ℚ) : ℝ) := by
    intro zq hq
    have hzne : ((zq : ℝ)) ≠ 0 := by exact_mod_cast hq.ne'
    rw [setRedshift, setDistances_dC _ hzne]
    show c / 70 * romberg (inverseOfE 0 (snapOmegak 0 0) 0) 0 (zq : ℝ) = _
    rw [snapOmegak_zero_zero]
    congr 1
    have h := romberg_ratCast (fun q : ℚ => 1 / |1 + q|) (inverseOfE 0 1 0) hfR 0 zq
    rw [Rat.cast_zero] at h
    exact h
  rw [show (0.120483451741 : ℝ) = ((0.120483451741 : ℚ) : ℝ) by norm_num]
  rw [show (0.120483451740 : ℝ) = ((0.120483451740 : ℚ) : ℝ) by norm_num]
  rw [key _ (by norm_num), key _ (by norm_num)]
  apply mul_lt_mul_of_pos_left _ (div_pos c_pos (by norm_num))
  rw [Rat.cast_lt]
  with_unfolding_all decide

end Cosmic
